import Mathlib

/-!
Verification development for the go-cache repository.

Shallow embedding of the in-memory cache engine (`memory/memory.go`), the
shared base helpers (`internal/base/operations.go`), the metrics collector
(`internal/metrics/collector.go`) and the advanced decorator
(`internal/advanced/advanced.go`, `internal/advanced/pipeline.go`).

Modelling conventions:
* `context.Context` is modelled by a `Bool` that is `true` exactly when the
  context's `Done` channel has already fired; `ctx.Err()` is then
  `context.Canceled`.
* Wall-clock instants (`time.Time`) are natural numbers, with `0` playing the
  role of the zero time (`IsZero`).  Durations (`time.Duration`) are integers
  (they can be negative in Go); the unit is seconds.
* Go maps guarded by the engine's mutex are modelled by the list that backs
  them: the `container/list` LRU list is a Lean list whose head is the
  most-recently-used element, and the `items` index map is implied by it.
* The fields `MItem.stamp` and `Mem.clock` are ghost instrumentation: the
  clock increases exactly when an entry is touched (a successful, non-expired
  `Get`, or any `Set`), and the touched entry records the clock value.  They
  are never read by any operation, so erasing them gives exactly the Go
  behaviour; they only serve to state which resident entry is the
  least-recently-touched one.
-/

deriving instance DecidableEq for Except

namespace GoCache

/-- Error sentinels from `internal/base/errors.go`. -/
inductive Sentinel where
  | keyEmpty
  | cacheMiss
  | invalidConfig
  | lockAcquire
  | lockNotHeld
  | connection
  | ctxCanceled
deriving Repr, DecidableEq

/-- An error value: either a bare sentinel (as returned by `ValidateKey` or
`ctx.Err()`), or a `CacheError` wrapping a sentinel with the operation name
and key (`base.WrapError`). -/
inductive Err where
  | plain (s : Sentinel)
  | wrapped (op : String) (s : Sentinel) (key : String)
deriving Repr, DecidableEq

/-- The sentinel reached by the `errors.Is` unwrap chain. -/
def Err.sentinel : Err → Sentinel
  | .plain s => s
  | .wrapped _ s _ => s

/-- `errors.Is(err, base.ErrCacheMiss)`. -/
def Err.isCacheMiss (e : Err) : Bool :=
  e.sentinel == Sentinel.cacheMiss

/-- Operation name constants (`internal/base/errors.go` op strings and the
string literals used by the advanced decorator). -/
def opGet : String := "get"

def opSet : String := "set"

def opGetOrSet : String := "get_or_set"

def opGetOrSetLocked : String := "get_or_set_locked"

def opGetManyPipeline : String := "get_many_pipeline"

def lockPfxStr : String := "lock:"

/-- The configuration fields read by the core (`config.Config`): default TTL,
key prefix and memory capacity (`MaxSize`). -/
structure Config where
  ttl : Int
  pfx : String
  maxSize : Int
deriving Repr, DecidableEq

/-- `Base.FullKey`: prepend the configured prefix unless it is empty. -/
def fullKey (cfg : Config) (key : String) : String :=
  if cfg.pfx = "" then key else cfg.pfx ++ key

/-- `Base.ResolveTTL`: a positive override wins, otherwise the configured
default TTL is used. -/
def resolveTTL (cfg : Config) (ttl : Int) : Int :=
  if 0 < ttl then ttl else cfg.ttl

/-- `Base.ValidateKey`: fails with `ErrKeyEmpty` when
`strings.TrimSpace(key) == ""`, i.e. when every character of the key is
whitespace. -/
def validateKey (key : String) : Option Err :=
  if key.data.all (fun c => c.isWhitespace) then some (.plain .keyEmpty) else none

/-- `Base.CheckContext`: returns `ctx.Err()` when the context has fired. -/
def checkContext (ctx : Bool) : Option Err :=
  if ctx then some (.plain .ctxCanceled) else none

/-! ## In-memory cache engine (`memory/memory.go`) -/

/-- Character-list prefix test (computable by the kernel). -/
def listPfx : List Char → List Char → Bool
  | [], _ => true
  | _ :: _, [] => false
  | a :: as, b :: bs => a == b && listPfx as bs

/-- `strings.HasPrefix(k, p)`: does `k` start with `p`? -/
def strHasPfx (p k : String) : Bool :=
  listPfx p.data k.data

/-- `memoryItem[T]`: namespaced key, value, absolute expiry (0 = never), plus
the ghost last-touch stamp. -/
structure MItem (V : Type) where
  key : String
  value : V
  expiresAt : Nat
  stamp : Nat
deriving Repr, DecidableEq

/-- `memoryCache[T]`: the LRU list (head = most-recently-used), the `length`
counter maintained alongside it, and the ghost clock. -/
structure Mem (V : Type) where
  cfg : Config
  entries : List (MItem V)
  length : Int
  clock : Nat
deriving Repr, DecidableEq

/-- A fresh engine as produced by `NewMemory` (the background sweep goroutine
is outside this model; construction fails only on a non-LRU eviction policy,
which the claims do not exercise). -/
def mkMem (V : Type) (cfg : Config) : Mem V :=
  ⟨cfg, [], 0, 0⟩

/-- `memoryCache.expired`: non-zero expiry strictly in the past. -/
def expiredAt (now : Nat) (it : MItem V) : Bool :=
  it.expiresAt != 0 && decide (it.expiresAt < now)

/-- Lookup in the `items` index map. -/
def findEntry (s : Mem V) (fk : String) : Option (MItem V) :=
  s.entries.find? (fun it => it.key == fk)

/-- `memoryCache.remove` for an element that is present: unlink from the list,
drop from the index, decrement the counter. -/
def removeKey (s : Mem V) (fk : String) : Mem V :=
  { s with entries := s.entries.filter (fun it => it.key != fk),
           length := s.length - 1 }

/-- `memoryCache.evict`: remove the back of the LRU list if any. -/
def evict (s : Mem V) : Mem V :=
  match s.entries.getLast? with
  | none => s
  | some _ => { s with entries := s.entries.dropLast, length := s.length - 1 }

/-- `memoryCache.Get`. -/
def memGet (s : Mem V) (ctx : Bool) (key : String) (now : Nat) :
    Except Err V × Mem V :=
  match validateKey key with
  | some e => (.error e, s)
  | none =>
    match checkContext ctx with
    | some e => (.error e, s)
    | none =>
      let fk := fullKey s.cfg key
      match findEntry s fk with
      | none => (.error (.wrapped opGet .cacheMiss key), s)
      | some it =>
        if expiredAt now it then
          (.error (.wrapped opGet .cacheMiss key), removeKey s fk)
        else
          (.ok it.value,
           { s with
               entries := { it with stamp := s.clock } ::
                 s.entries.filter (fun j => j.key != fk),
               clock := s.clock + 1 })

/-- `memoryCache.Set`. -/
def memSet (s : Mem V) (ctx : Bool) (key : String) (v : V) (ttl : Int)
    (now : Nat) : Option Err × Mem V :=
  match validateKey key with
  | some e => (some e, s)
  | none =>
    match checkContext ctx with
    | some e => (some e, s)
    | none =>
      let fk := fullKey s.cfg key
      let rttl := resolveTTL s.cfg ttl
      let expAt : Nat := if 0 < rttl then now + rttl.toNat else 0
      match findEntry s fk with
      | some _ =>
        (none,
         { s with
             entries := ⟨fk, v, expAt, s.clock⟩ ::
               s.entries.filter (fun j => j.key != fk),
             clock := s.clock + 1 })
      | none =>
        let s1 := if 0 < s.cfg.maxSize ∧ s.cfg.maxSize ≤ s.length then evict s else s
        (none,
         { s1 with
             entries := ⟨fk, v, expAt, s.clock⟩ :: s1.entries,
             length := s1.length + 1,
             clock := s.clock + 1 })

/-- `memoryCache.Delete`: remove each present namespaced key, ignore absent
ones. -/
def memDelete (s : Mem V) (ctx : Bool) (keys : List String) :
    Option Err × Mem V :=
  match checkContext ctx with
  | some e => (some e, s)
  | none =>
    (none,
     keys.foldl
       (fun acc k =>
         let fk := fullKey acc.cfg k
         match findEntry acc fk with
         | some _ => removeKey acc fk
         | none => acc)
       s)

/-- `memoryCache.Exists`.  NOTE: the Go signature is
`Exists(_ context.Context, key string)` — the context argument is ignored. -/
def memExists (s : Mem V) (_ctx : Bool) (key : String) (now : Nat) :
    Except Err Bool × Mem V :=
  match validateKey key with
  | some e => (.error e, s)
  | none =>
    let fk := fullKey s.cfg key
    match findEntry s fk with
    | none => (.ok false, s)
    | some it =>
      if expiredAt now it then (.ok false, removeKey s fk)
      else (.ok true, s)

/-- `memoryCache.Clear`. -/
def memClear (s : Mem V) (ctx : Bool) : Option Err × Mem V :=
  match checkContext ctx with
  | some e => (some e, s)
  | none => (none, { s with entries := [], length := 0 })

/-- `memoryCache.Len`. -/
def memLen (s : Mem V) (ctx : Bool) : Except Err Int × Mem V :=
  match checkContext ctx with
  | some e => (.error e, s)
  | none => (.ok s.length, s)

/-- `memoryCache.DeleteByPrefix`.  NOTE: the Go signature is
`DeleteByPrefix(_ context.Context, prefix string)` — the context argument is
ignored, and the returned error is always nil. -/
def memDeleteByPfx (s : Mem V) (_ctx : Bool) (p : String) :
    Except Err Int × Mem V :=
  let fp := fullKey s.cfg p
  let removed := s.entries.filter (fun it => strHasPfx fp it.key)
  (.ok (removed.length : Int),
   { s with
       entries := s.entries.filter (fun it => !(strHasPfx fp it.key)),
       length := s.length - removed.length })

/-- `memoryCache.Ping`. -/
def memPing (s : Mem V) (ctx : Bool) : Option Err × Mem V :=
  (checkContext ctx, s)

/-! ## Operation traces over the engine -/

/-- One public operation of the in-memory engine, with its context state and
(for time-dependent operations) the instant at which it runs. -/
inductive MOp (V : Type) where
  | get (ctx : Bool) (key : String) (now : Nat)
  | set (ctx : Bool) (key : String) (v : V) (ttl : Int) (now : Nat)
  | del (ctx : Bool) (keys : List String)
  | clear (ctx : Bool)
  | existsOp (ctx : Bool) (key : String) (now : Nat)
  | delByPfx (ctx : Bool) (p : String)
  | lenOp (ctx : Bool)
  | ping (ctx : Bool)

/-- The state reached after one operation (results discarded). -/
def stepOp (s : Mem V) : MOp V → Mem V
  | .get ctx k now => (memGet s ctx k now).2
  | .set ctx k v ttl now => (memSet s ctx k v ttl now).2
  | .del ctx ks => (memDelete s ctx ks).2
  | .clear ctx => (memClear s ctx).2
  | .existsOp ctx k now => (memExists s ctx k now).2
  | .delByPfx ctx p => (memDeleteByPfx s ctx p).2
  | .lenOp ctx => (memLen s ctx).2
  | .ping ctx => (memPing s ctx).2

/-- The state reached after a sequence of operations. -/
def runOps (s : Mem V) (ops : List (MOp V)) : Mem V :=
  ops.foldl stepOp s

/-- The namespaced keys currently resident, most-recently-used first. -/
def keysOf (s : Mem V) : List String :=
  s.entries.map (fun it => it.key)

/-! ## Metrics collector (`internal/metrics/collector.go`) -/

/-- `OperationStats` (durations are wall-clock data and are not modelled). -/
structure OpStats where
  count : Int
  totalItems : Int
  hits : Int
  misses : Int
deriving Repr, DecidableEq

/-- The collector: its config flag, the per-operation stats map and the
separate error-count map (association lists stand for the Go maps). -/
structure Collector where
  enabled : Bool
  opsM : List (String × OpStats)
  errsM : List (String × Int)
deriving Repr, DecidableEq

/-- `metrics.NewCollector()`: the `cfg Config` field keeps its zero value, so
`cfg.Enabled` is `false`. -/
def newCollector : Collector :=
  ⟨false, [], []⟩

/-- `metrics.DefaultConfig().Enabled` — defined by the source but never used
by `NewCollector`. -/
def metricsDefaultEnabled : Bool := true

/-- `Collector.record`: look up the stats record for `op`, creating it lazily,
and apply the mutation. -/
def updStats (m : List (String × OpStats)) (op : String)
    (f : OpStats → OpStats) : List (String × OpStats) :=
  match m.find? (fun p => p.1 == op) with
  | some _ => m.map (fun p => if p.1 == op then (p.1, f p.2) else p)
  | none => m ++ [(op, f ⟨0, 0, 0, 0⟩)]

/-- `Collector.RecordOperation` (the duration argument is dropped). -/
def recordOperation (c : Collector) (op : String) (itemCount : Int) :
    Collector :=
  if ¬c.enabled ∨ op = "" ∨ itemCount ≤ 0 then c
  else
    { c with
        opsM := updStats c.opsM op (fun s =>
          { s with count := s.count + 1, totalItems := s.totalItems + itemCount }) }

/-- `Collector.RecordHit`. -/
def recordHit (c : Collector) (op : String) (n : Int) : Collector :=
  if ¬c.enabled ∨ op = "" ∨ n ≤ 0 then c
  else { c with opsM := updStats c.opsM op (fun s => { s with hits := s.hits + n }) }

/-- `Collector.RecordMiss`. -/
def recordMiss (c : Collector) (op : String) (n : Int) : Collector :=
  if ¬c.enabled ∨ op = "" ∨ n ≤ 0 then c
  else { c with opsM := updStats c.opsM op (fun s => { s with misses := s.misses + n }) }

/-- `Collector.RecordError`. -/
def recordError (c : Collector) (op : String) : Collector :=
  if ¬c.enabled ∨ op = "" then c
  else
    match c.errsM.find? (fun p => p.1 == op) with
    | some _ =>
      { c with errsM := c.errsM.map (fun p => if p.1 == op then (p.1, p.2 + 1) else p) }
    | none => { c with errsM := c.errsM ++ [(op, 1)] }

/-- One entry of `Collector.Snapshot()` (durations dropped). -/
structure SnapStats where
  count : Int
  totalItems : Int
  hits : Int
  misses : Int
  errors : Int
deriving Repr, DecidableEq

/-- `Collector.Snapshot()`: returns the nil map (`none`) when the collector is
disabled. -/
def snapshot (c : Collector) : Option (List (String × SnapStats)) :=
  if ¬c.enabled then none
  else
    some (c.opsM.map (fun p =>
      (p.1,
       ⟨p.2.count, p.2.totalItems, p.2.hits, p.2.misses,
        ((c.errsM.find? (fun q => q.1 == p.1)).map (fun q => q.2)).getD 0⟩)))

/-! ## Advanced decorator (`internal/advanced/advanced.go`, `pipeline.go`)

The decorator is generic over any `interfaces.Cache` implementation; a wrapped
store is a record of its operations over an abstract state `σ`, together with
the optional capabilities the decorator probes for
(`interfaces.DistributedLocker`, `interfaces.PipelineGetter`). -/

/-- `interfaces.DistributedLocker`. `TryLock` returns `(acquired, error)`. -/
structure Locker (σ : Type) where
  tryLock : σ → Bool → String → Int → (Bool × Option Err) × σ
  unlock : σ → Bool → String → Option Err × σ

/-- A wrapped store: the core contract operations the claims exercise, plus
optional capabilities (`none` = the type assertion fails). -/
structure Store (σ V : Type) where
  get : σ → Bool → String → Except Err V × σ
  set : σ → Bool → String → V → Int → Option Err × σ
  locker : Option (Locker σ)
  pipeGet : Option (σ → Bool → List String → (List (String × V) × Option Err) × σ)

/-- `advancedCache[T]`: the wrapped store and its state, the decorator's own
metrics collector (`base.NewBase(cfg).Collector`), and the configuration. -/
structure Adv (σ V : Type) where
  store : Store σ V
  st : σ
  coll : Collector
  cfg : Config

/-- `NewAdvancedCache`: wraps the store; the collector comes from
`metrics.NewCollector()` and is therefore disabled. -/
def newAdvanced (store : Store σ V) (st : σ) (cfg : Config) : Adv σ V :=
  ⟨store, st, newCollector, cfg⟩

/-- The error component of an `Except` result. -/
def errOfExcept : Except Err V → Option Err
  | .error e => some e
  | .ok _ => none

/-- `advancedCache.withMetrics`, applied to a finished body: record the
operation (duration dropped), and record an error when the body failed. -/
def withMetricsColl (c : Collector) (op : String) (items : Int)
    (err : Option Err) : Collector :=
  let c1 := recordOperation c op items
  match err with
  | some _ => recordError c1 op
  | none => c1

/-- `advancedCache.Get`: validate, check the context, then call the wrapped
store's `Get`, recording a miss (only for the cache-miss signal) or a hit. -/
def advGet (a : Adv σ V) (ctx : Bool) (key : String) :
    Except Err V × Adv σ V :=
  match validateKey key with
  | some e => (.error e, a)
  | none =>
    match checkContext ctx with
    | some e => (.error e, a)
    | none =>
      let (r, st') := a.store.get a.st ctx key
      let c1 :=
        match r with
        | .error e => if e.isCacheMiss then recordMiss a.coll opGet 1 else a.coll
        | .ok _ => recordHit a.coll opGet 1
      (r, { a with st := st', coll := withMetricsColl c1 opGet 1 (errOfExcept r) })

/-- `advancedCache.Set`: validate, resolve the TTL against the decorator's own
config, then call the wrapped store's `Set` (no context check here). -/
def advSet (a : Adv σ V) (ctx : Bool) (key : String) (v : V) (ttl : Int) :
    Option Err × Adv σ V :=
  match validateKey key with
  | some e => (some e, a)
  | none =>
    let rttl := resolveTTL a.cfg ttl
    let (er, st') := a.store.set a.st ctx key v rttl
    (er, { a with st := st', coll := withMetricsColl a.coll opSet 1 er })

/-- `advancedCache.tryLock`: a no-op when the wrapped store lacks the locking
capability.  NOTE the Go body is `ok, err := locker.TryLock(...); if err != nil
|| !ok { return err }; return nil`: when the lock is simply not acquired
(`ok = false`, `err = nil`) it returns `err`, which is nil. -/
def advTryLock (a : Adv σ V) (ctx : Bool) (key : String) :
    Option Err × Adv σ V :=
  match a.store.locker with
  | none => (none, a)
  | some L =>
    let ((acq, er), st') := L.tryLock a.st ctx (lockPfxStr ++ key) 30
    if er.isSome || !acq then (er, { a with st := st' })
    else (none, { a with st := st' })

/-- `advancedCache.unlock`: release the lock when the capability exists; an
unlock failure only records an error for `get_or_set_locked`. -/
def advUnlock (a : Adv σ V) (ctx : Bool) (key : String) : Adv σ V :=
  match a.store.locker with
  | none => a
  | some L =>
    let (er, st') := L.unlock a.st ctx (lockPfxStr ++ key)
    match er with
    | some _ => { a with st := st', coll := recordError a.coll opGetOrSetLocked }
    | none => { a with st := st' }

/-- `advancedCache.getOrSet`.  The compute function is a pure result value
(`fn : Except Err V`); the extra `Nat` output is a ghost counter of how many
times `fn()` was invoked (it is written literally at the single call site and
never read, mirroring the single `fn()` call in the Go body). -/
def advGetOrSetCore (a : Adv σ V) (ctx : Bool) (key : String) (ttl : Int)
    (fn : Except Err V) (locked : Bool) : Except Err V × Adv σ V × Nat :=
  let op := if locked then opGetOrSetLocked else opGetOrSet
  match advGet a ctx key with
  | (.ok v, a1) =>
    (.ok v, { a1 with coll := withMetricsColl a1.coll op 1 none }, 0)
  | (.error e, a1) =>
    if !e.isCacheMiss then
      (.error e, { a1 with coll := withMetricsColl a1.coll op 1 (some e) }, 0)
    else
      match (if locked then advTryLock a1 ctx key else (none, a1)) with
      | (some le, a2) =>
        (.error le, { a2 with coll := withMetricsColl a2.coll op 1 (some le) }, 0)
      | (none, a2) =>
        match fn with
        | .error fe =>
          let a3 := if locked then advUnlock a2 ctx key else a2
          (.error fe, { a3 with coll := withMetricsColl a3.coll op 1 (some fe) }, 1)
        | .ok v =>
          let a3 := (advSet a2 ctx key v ttl).2
          let a4 := if locked then advUnlock a3 ctx key else a3
          (.ok v, { a4 with coll := withMetricsColl a4.coll op 1 none }, 1)

/-- `advancedCache.GetOrSet`. -/
def advGetOrSet (a : Adv σ V) (ctx : Bool) (key : String) (ttl : Int)
    (fn : Except Err V) : Except Err V × Adv σ V × Nat :=
  advGetOrSetCore a ctx key ttl fn false

/-- `advancedCache.GetOrSetLocked`. -/
def advGetOrSetLocked (a : Adv σ V) (ctx : Bool) (key : String) (ttl : Int)
    (fn : Except Err V) : Except Err V × Adv σ V × Nat :=
  advGetOrSetCore a ctx key ttl fn true

/-- Sequential determinization of `concurrentExecute` specialised to the
emulated `GetManyPipeline` tasks.  Task slots run in submission order (the
semaphore of width 10 never blocks a sequential run); slot `i` observes the
context state `ctxAt i` — the `select` between acquiring the semaphore and
`ctx.Done()` — so a slot whose context has fired records the cancellation
error via `once.Do` (first-writer-wins) and does not execute its task.  The
result map is the association list of successful fetches in completion
order. -/
def gmpLoop (a : Adv σ V) (ctxAt : Nat → Bool) (keys : List String) (i : Nat)
    (acc : List (String × V)) (firstErr : Option Err) :
    List (String × V) × Option Err × Adv σ V :=
  match keys with
  | [] => (acc, firstErr, a)
  | k :: rest =>
    if ctxAt i then
      let fe := match firstErr with
        | none => some (Err.plain .ctxCanceled)
        | some e0 => some e0
      gmpLoop a ctxAt rest (i + 1) acc fe
    else
      match advGet a (ctxAt i) k with
      | (.ok v, a') => gmpLoop a' ctxAt rest (i + 1) (acc ++ [(k, v)]) firstErr
      | (.error e, a') =>
        let fe := match firstErr with
          | none => some e
          | some e0 => some e0
        gmpLoop a' ctxAt rest (i + 1) acc fe

/-- `advancedCache.GetManyPipeline`: delegate when the wrapped store has the
pipelined-get capability, otherwise fan out one decorated `Get` per key and
collect successes; the first task error (of any kind) is captured once and
returned after all tasks have run. -/
def advGetManyPipeline (a : Adv σ V) (ctxAt : Nat → Bool)
    (keys : List String) : List (String × V) × Option Err × Adv σ V :=
  match a.store.pipeGet with
  | some pg =>
    let ((res, er), st') := pg a.st (ctxAt 0) keys
    (res, er, { a with st := st' })
  | none =>
    let (res, er, a') := gmpLoop a ctxAt keys 0 [] none
    (res, er,
     { a' with coll := withMetricsColl a'.coll opGetManyPipeline (keys.length : Int) er })

/-- The in-memory engine packaged as a wrapped store, all calls happening at
instant `now` (the engine reads `time.Now()` internally; the claims evaluate
scenarios at a fixed instant). -/
def memStore (V : Type) (now : Nat) : Store (Mem V) V :=
  { get := fun s ctx k => memGet s ctx k now,
    set := fun s ctx k v ttl => memSet s ctx k v ttl now,
    locker := none,
    pipeGet := none }

/-! ## Engine invariant -/

/-- The structural invariant of the in-memory engine: the index keys are
distinct, the LRU list is ordered by strictly decreasing last-touch stamp
(head = most recent), stamps lie below the clock, the `length` counter agrees
with the list, and the entry count respects a positive capacity. -/
structure MemInv (s : Mem V) : Prop where
  nodup : (keysOf s).Nodup
  sorted : s.entries.Pairwise (fun a b => b.stamp < a.stamp)
  stampLt : ∀ it ∈ s.entries, it.stamp < s.clock
  lenEq : s.length = (s.entries.length : Int)
  capOk : 0 < s.cfg.maxSize → (s.entries.length : Int) ≤ s.cfg.maxSize

/-! ## Concrete fixtures used by witnesses and counterexamples -/

/-- Test key. -/
def kA : String := "a"

/-- Test key. -/
def kB : String := "b"

/-- Test key. -/
def kC : String := "c"

/-- Test key. -/
def kK : String := "k"

/-- Test value. -/
def vV : String := "v"

/-- A configuration with default TTL 300 s and capacity 100. -/
def cfgT : Config := ⟨300, "", 100⟩

/-- A configuration with default TTL 300 s and capacity 2. -/
def cfgW : Config := ⟨300, "", 2⟩

/-- Default TTL of 5 minutes (= 300 s), ample capacity — the configuration of
the `Set`/`Get`/stats example scenario. -/
def cfg5m : Config := ⟨300, "", 1024⟩

/-- A memory engine holding `a ↦ 1` (set at instant 10 with the default
TTL). -/
def memA1 : Mem Nat := (memSet (mkMem Nat cfgT) false kA 1 0 10).2

/-- The advanced decorator over `memA1`; the memory engine exposes neither the
pipelined-get nor the locking capability. -/
def advA1 : Adv (Mem Nat) Nat := newAdvanced (memStore Nat 10) memA1 cfgT

/-- The advanced decorator over a fresh memory engine with default TTL 5
minutes, all calls at instant 1000. -/
def advFresh : Adv (Mem String) String :=
  newAdvanced (memStore String 1000) (mkMem String cfg5m) cfg5m

/-- A wrapped store exposing the distributed-locking capability whose
`TryLock` reports `(false, nil)` — the lock is held by someone else — and
whose `Get` always misses. -/
def lockStub : Store Unit Nat :=
  { get := fun st _ k => (.error (.wrapped opGet .cacheMiss k), st),
    set := fun st _ _ _ _ => (none, st),
    locker := some { tryLock := fun st _ _ _ => ((false, none), st),
                     unlock := fun st _ _ => (none, st) },
    pipeGet := none }

/-- The advanced decorator over `lockStub`. -/
def advLockStub : Adv Unit Nat := newAdvanced lockStub () cfgT

/-- A memory engine holding `a ↦ 7` (set at instant 5), used to probe the
operations that ignore the cancellation signal. -/
def memA7 : Mem Nat := (memSet (mkMem Nat cfgT) false kA 7 0 5).2

/-- Three distinct inserts, for the capacity-2 scenarios. -/
def xsW5 : List (String × Nat × Int × Nat) :=
  [(kA, 1, 0, 5), (kB, 2, 0, 6), (kC, 3, 0, 7)]

/-- A trace filling a capacity-2 engine: insert `a`, insert `b`. -/
def opsW5 : List (MOp Nat) :=
  [MOp.set false kA 1 0 5, MOp.set false kB 2 0 6]

/-! ## Basic lemmas about the engine's data structures -/

theorem findEntry_eq_none_iff {s : Mem V} {fk : String} :
    findEntry s fk = none ↔ ∀ it ∈ s.entries, it.key ≠ fk := by
  simp [findEntry, List.find?_eq_none]

theorem findEntry_some_mem {s : Mem V} {fk : String} {it : MItem V}
    (h : findEntry s fk = some it) : it ∈ s.entries ∧ it.key = fk := by
  refine ⟨List.mem_of_find?_eq_some h, ?_⟩
  have := List.find?_some h
  simpa using this

theorem filter_ne_of_not_mem {l : List (MItem V)} {fk : String}
    (h : ∀ it ∈ l, it.key ≠ fk) :
    l.filter (fun it => it.key != fk) = l := by
  refine List.filter_eq_self.mpr (fun it hm => ?_)
  simpa using h it hm

theorem length_filter_ne_add_one {l : List (MItem V)} {fk : String}
    (hnd : (l.map (fun it => it.key)).Nodup) {it0 : MItem V}
    (hmem : it0 ∈ l) (hkey : it0.key = fk) :
    (l.filter (fun it => it.key != fk)).length + 1 = l.length := by
  induction l with
  | nil => cases hmem
  | cons a t ih =>
    simp only [List.map_cons, List.nodup_cons] at hnd
    rcases List.mem_cons.mp hmem with rfl | hmt
    · have hall : ∀ it ∈ t, it.key ≠ fk := by
        intro it hit hcontra
        exact hnd.1 (hkey ▸ hcontra ▸ List.mem_map_of_mem (fun j => j.key) hit)
      simp [List.filter_cons, hkey, filter_ne_of_not_mem hall]
    · have hane : a.key ≠ fk := by
        intro hcontra
        exact hnd.1 (hcontra ▸ hkey ▸ List.mem_map_of_mem (fun j => j.key) hmt)
      have := ih hnd.2 hmt
      simp only [List.filter_cons]
      have : (a.key != fk) = true := by simpa using hane
      simp only [this, if_true]
      simp only [List.length_cons]
      omega

theorem length_filter_split (l : List α) (p : α → Bool) :
    (l.filter p).length + (l.filter (fun x => !(p x))).length = l.length := by
  induction l with
  | nil => rfl
  | cons a t ih =>
    by_cases h : p a = true <;> simp [List.filter_cons, h] <;> omega

/-! ## Preservation of the engine invariant -/

theorem memInv_mk (V : Type) (cfg : Config) : MemInv (mkMem V cfg) := by
  refine ⟨?_, ?_, ?_, ?_, ?_⟩ <;> (simp [mkMem, keysOf]; try omega)

theorem keysOf_nodup {s : Mem V} (h : MemInv s) :
    (s.entries.map (fun it => it.key)).Nodup := h.nodup

theorem memInv_removeKey {s : Mem V} (h : MemInv s) {fk : String}
    {it0 : MItem V} (hf : findEntry s fk = some it0) :
    MemInv (removeKey s fk) := by
  obtain ⟨hm, hk⟩ := findEntry_some_mem hf
  have hsub : (s.entries.filter (fun it => it.key != fk)).Sublist s.entries :=
    List.filter_sublist _
  have hlen := length_filter_ne_add_one (V := V) (keysOf_nodup h) hm hk
  have hle := h.lenEq
  refine ⟨?_, ?_, ?_, ?_, ?_⟩
  · show ((s.entries.filter (fun it => it.key != fk)).map
      (fun it => it.key)).Nodup
    exact (hsub.map (fun it => it.key)).nodup (keysOf_nodup h)
  · exact h.sorted.sublist hsub
  · intro it hit
    exact h.stampLt it (hsub.mem hit)
  · dsimp only [removeKey]
    omega
  · intro hpos
    have := h.capOk hpos
    dsimp only [removeKey]
    omega

theorem evict_entries (s : Mem V) :
    (evict s).entries = s.entries.dropLast := by
  unfold evict
  cases hl : s.entries.getLast? with
  | none =>
    have hnil : s.entries = [] := by
      cases he : s.entries with
      | nil => rfl
      | cons a t => rw [he] at hl; simp [List.getLast?] at hl
    simp [hnil]
  | some it => simp

theorem memInv_evict {s : Mem V} (h : MemInv s) : MemInv (evict s) := by
  unfold evict
  cases hl : s.entries.getLast? with
  | none => exact h
  | some it =>
    dsimp only
    have hne : s.entries ≠ [] := by
      intro he
      rw [he] at hl
      simp at hl
    have hpos : 0 < s.entries.length := List.length_pos.mpr hne
    have hsub : s.entries.dropLast.Sublist s.entries := List.dropLast_sublist _
    have hlen : s.entries.dropLast.length = s.entries.length - 1 :=
      List.length_dropLast _
    have hle := h.lenEq
    refine ⟨?_, ?_, ?_, ?_, ?_⟩
    · show (s.entries.dropLast.map (fun j => j.key)).Nodup
      exact (hsub.map (fun j => j.key)).nodup (keysOf_nodup h)
    · exact h.sorted.sublist hsub
    · intro j hj
      exact h.stampLt j (hsub.mem hj)
    · dsimp only
      omega
    · intro hposM
      have := h.capOk hposM
      dsimp only
      omega

theorem memInv_touch_front {s : Mem V} (h : MemInv s) {fk : String}
    {it0 : MItem V} (hm : it0 ∈ s.entries) (hk : it0.key = fk)
    (nk : String) (hnk : nk = fk) (nv : V) (nexp : Nat) :
    MemInv { s with
               entries := ⟨nk, nv, nexp, s.clock⟩ ::
                 s.entries.filter (fun j => j.key != fk),
               clock := s.clock + 1 } := by
  rw [hnk]
  have hsub : (s.entries.filter (fun j => j.key != fk)).Sublist s.entries :=
    List.filter_sublist _
  have hlen := length_filter_ne_add_one (V := V) (keysOf_nodup h) hm hk
  have hle := h.lenEq
  refine ⟨?_, ?_, ?_, ?_, ?_⟩
  · show (fk :: (s.entries.filter (fun j => j.key != fk)).map
      (fun j => j.key)).Nodup
    refine List.nodup_cons.mpr ⟨?_, (hsub.map (fun j => j.key)).nodup (keysOf_nodup h)⟩
    intro hcontra
    rcases List.mem_map.mp hcontra with ⟨j, hj, hjk⟩
    have := List.of_mem_filter hj
    rw [hjk] at this
    simp at this
  · refine List.pairwise_cons.mpr ⟨?_, h.sorted.sublist hsub⟩
    intro j hj
    exact h.stampLt j (hsub.mem hj)
  · intro j hj
    rcases List.mem_cons.mp hj with rfl | hjt
    · simp
    · exact Nat.lt_succ_of_lt (h.stampLt j (hsub.mem hjt))
  · dsimp only
    simp only [List.length_cons]
    omega
  · intro hpos
    have := h.capOk hpos
    dsimp only
    simp only [List.length_cons]
    omega

theorem memInv_memGet {s : Mem V} (h : MemInv s) (ctx : Bool) (k : String)
    (now : Nat) : MemInv ((memGet s ctx k now).2) := by
  unfold memGet
  cases hv : validateKey k with
  | some e => simp only [hv]; exact h
  | none =>
    cases hc : checkContext ctx with
    | some e => simp only [hv, hc]; exact h
    | none =>
      simp only [hv, hc]
      cases hf : findEntry s (fullKey s.cfg k) with
      | none => simp only [hf]; exact h
      | some it =>
        simp only [hf]
        obtain ⟨hm, hk⟩ := findEntry_some_mem hf
        by_cases hx : expiredAt now it = true
        · rw [if_pos hx]
          exact memInv_removeKey h hf
        · rw [if_neg hx]
          exact memInv_touch_front h hm hk it.key hk it.value it.expiresAt

theorem evict_clock (s : Mem V) : (evict s).clock = s.clock := by
  unfold evict
  cases s.entries.getLast? <;> rfl

theorem evict_cfg (s : Mem V) : (evict s).cfg = s.cfg := by
  unfold evict
  cases s.entries.getLast? <;> rfl

theorem memInv_push_fresh {s : Mem V} (h : MemInv s) {fk : String}
    (hfresh : ∀ it ∈ s.entries, it.key ≠ fk) (v : V) (expAt ck : Nat)
    (hck : s.clock ≤ ck)
    (hcap : 0 < s.cfg.maxSize → (s.entries.length : Int) + 1 ≤ s.cfg.maxSize) :
    MemInv { s with
               entries := ⟨fk, v, expAt, ck⟩ :: s.entries,
               length := s.length + 1,
               clock := ck + 1 } := by
  have hle := h.lenEq
  refine ⟨?_, ?_, ?_, ?_, ?_⟩
  · show (fk :: s.entries.map (fun j => j.key)).Nodup
    refine List.nodup_cons.mpr ⟨?_, keysOf_nodup h⟩
    intro hcontra
    rcases List.mem_map.mp hcontra with ⟨j, hj, hjk⟩
    exact hfresh j hj hjk
  · refine List.pairwise_cons.mpr ⟨?_, h.sorted⟩
    intro j hj
    exact Nat.lt_of_lt_of_le (h.stampLt j hj) hck
  · intro j hj
    rcases List.mem_cons.mp hj with rfl | hjt
    · simp
    · exact Nat.lt_succ_of_lt (Nat.lt_of_lt_of_le (h.stampLt j hjt) hck)
  · dsimp only
    simp only [List.length_cons]
    omega
  · intro hpos
    have := hcap hpos
    dsimp only
    simp only [List.length_cons]
    omega

theorem memInv_memSet {s : Mem V} (h : MemInv s) (ctx : Bool) (k : String)
    (v : V) (ttl : Int) (now : Nat) : MemInv ((memSet s ctx k v ttl now).2) := by
  unfold memSet
  cases hv : validateKey k with
  | some e => simp only [hv]; exact h
  | none =>
    cases hc : checkContext ctx with
    | some e => simp only [hv, hc]; exact h
    | none =>
      simp only [hv, hc]
      cases hf : findEntry s (fullKey s.cfg k) with
      | some it0 =>
        simp only [hf]
        obtain ⟨hm, hk⟩ := findEntry_some_mem hf
        exact memInv_touch_front h hm hk (fullKey s.cfg k) rfl v _
      | none =>
        simp only [hf]
        have hfresh : ∀ it ∈ s.entries, it.key ≠ fullKey s.cfg k :=
          findEntry_eq_none_iff.mp hf
        have hle := h.lenEq
        by_cases hg : 0 < s.cfg.maxSize ∧ s.cfg.maxSize ≤ s.length
        · rw [if_pos hg]
          have hpose : 0 < s.entries.length := by omega
          have hne : s.entries ≠ [] := List.length_pos.mp hpose
          have hinv1 := memInv_evict h
          have hfresh1 : ∀ it ∈ (evict s).entries, it.key ≠ fullKey s.cfg k := by
            intro it hit
            rw [evict_entries] at hit
            exact hfresh it ((List.dropLast_sublist _).mem hit)
          have hcap1 : 0 < (evict s).cfg.maxSize →
              ((evict s).entries.length : Int) + 1 ≤ (evict s).cfg.maxSize := by
            rw [evict_cfg, evict_entries, List.length_dropLast]
            intro hpos
            have := h.capOk hpos
            omega
          have := memInv_push_fresh hinv1 hfresh1 v
            (if 0 < resolveTTL s.cfg ttl then now + (resolveTTL s.cfg ttl).toNat else 0)
            s.clock (le_of_eq (evict_clock s)) hcap1
          simpa [evict_clock] using this
        · rw [if_neg hg]
          have hcap1 : 0 < s.cfg.maxSize → (s.entries.length : Int) + 1 ≤ s.cfg.maxSize := by
            intro hpos
            have h2 : ¬s.cfg.maxSize ≤ s.length := fun hcon => hg ⟨hpos, hcon⟩
            omega
          exact memInv_push_fresh h hfresh v _ s.clock le_rfl hcap1

theorem memInv_memDelete {s : Mem V} (h : MemInv s) (ctx : Bool)
    (ks : List String) : MemInv ((memDelete s ctx ks).2) := by
  unfold memDelete
  cases hc : checkContext ctx with
  | some e => simp only [hc]; exact h
  | none =>
    simp only [hc]
    induction ks generalizing s with
    | nil => exact h
    | cons k rest ih =>
      simp only [List.foldl_cons]
      cases hf : findEntry s (fullKey s.cfg k) with
      | some it0 =>
        simp only [hf]
        exact ih (memInv_removeKey h hf)
      | none =>
        simp only [hf]
        exact ih h

theorem memInv_memExists {s : Mem V} (h : MemInv s) (ctx : Bool) (k : String)
    (now : Nat) : MemInv ((memExists s ctx k now).2) := by
  unfold memExists
  cases hv : validateKey k with
  | some e => simp only [hv]; exact h
  | none =>
    simp only [hv]
    cases hf : findEntry s (fullKey s.cfg k) with
    | none => simp only [hf]; exact h
    | some it =>
      simp only [hf]
      by_cases hx : expiredAt now it = true
      · rw [if_pos hx]
        exact memInv_removeKey h hf
      · rw [if_neg hx]
        exact h

theorem memInv_memClear {s : Mem V} (h : MemInv s) (ctx : Bool) :
    MemInv ((memClear s ctx).2) := by
  unfold memClear
  cases hc : checkContext ctx with
  | some e => simp only [hc]; exact h
  | none =>
    simp only [hc]
    refine ⟨?_, ?_, ?_, ?_, ?_⟩ <;> (simp [keysOf]; try omega)

theorem memInv_memDeleteByPfx {s : Mem V} (h : MemInv s) (ctx : Bool)
    (p : String) : MemInv ((memDeleteByPfx s ctx p).2) := by
  unfold memDeleteByPfx
  have hsplit := length_filter_split s.entries
    (fun it => strHasPfx (fullKey s.cfg p) it.key)
  have hsub : (s.entries.filter
      (fun it => !(strHasPfx (fullKey s.cfg p) it.key))).Sublist s.entries :=
    List.filter_sublist _
  have hle := h.lenEq
  refine ⟨?_, ?_, ?_, ?_, ?_⟩
  · show ((s.entries.filter
      (fun it => !(strHasPfx (fullKey s.cfg p) it.key))).map (fun j => j.key)).Nodup
    exact (hsub.map (fun j => j.key)).nodup (keysOf_nodup h)
  · exact h.sorted.sublist hsub
  · intro j hj
    exact h.stampLt j (hsub.mem hj)
  · dsimp only
    omega
  · intro hpos
    have := h.capOk hpos
    have hlf := List.length_filter_le
      (fun it => !(strHasPfx (fullKey s.cfg p) it.key)) s.entries
    dsimp only
    omega

theorem memInv_stepOp {s : Mem V} (h : MemInv s) (op : MOp V) :
    MemInv (stepOp s op) := by
  cases op with
  | get ctx k now => exact memInv_memGet h ctx k now
  | set ctx k v ttl now => exact memInv_memSet h ctx k v ttl now
  | del ctx ks => exact memInv_memDelete h ctx ks
  | clear ctx => exact memInv_memClear h ctx
  | existsOp ctx k now => exact memInv_memExists h ctx k now
  | delByPfx ctx p => exact memInv_memDeleteByPfx h ctx p
  | lenOp ctx =>
    simp only [stepOp]
    have hst : (memLen s ctx).2 = s := by
      unfold memLen
      cases checkContext ctx <;> rfl
    rw [hst]; exact h
  | ping ctx =>
    simp only [stepOp]
    exact h

theorem memInv_runOps {s : Mem V} (h : MemInv s) (ops : List (MOp V)) :
    MemInv (runOps s ops) := by
  induction ops generalizing s with
  | nil => exact h
  | cons op rest ih => exact ih (memInv_stepOp h op)

/-! ## Configuration preservation -/

theorem checkContext_false : checkContext false = none := rfl

theorem checkContext_true :
    checkContext true = some (.plain .ctxCanceled) := rfl

theorem memGet_cfg (s : Mem V) (ctx : Bool) (k : String) (now : Nat) :
    ((memGet s ctx k now).2).cfg = s.cfg := by
  unfold memGet
  cases hv : validateKey k with
  | some e => rfl
  | none =>
    cases hc : checkContext ctx with
    | some e => simp only [hv, hc]
    | none =>
      simp only [hv, hc]
      cases hf : findEntry s (fullKey s.cfg k) with
      | none => simp only [hf]
      | some it =>
        simp only [hf]
        by_cases hx : expiredAt now it = true
        · rw [if_pos hx]
          rfl
        · rw [if_neg hx]

theorem memSet_cfg (s : Mem V) (ctx : Bool) (k : String) (v : V) (ttl : Int)
    (now : Nat) : ((memSet s ctx k v ttl now).2).cfg = s.cfg := by
  unfold memSet
  cases hv : validateKey k with
  | some e => rfl
  | none =>
    cases hc : checkContext ctx with
    | some e => simp only [hv, hc]
    | none =>
      simp only [hv, hc]
      cases hf : findEntry s (fullKey s.cfg k) with
      | none =>
        simp only [hf]
        by_cases hg : 0 < s.cfg.maxSize ∧ s.cfg.maxSize ≤ s.length
        · rw [if_pos hg]
          exact evict_cfg s
        · rw [if_neg hg]
      | some it0 => simp only [hf]

theorem memDelete_cfg (s : Mem V) (ctx : Bool) (ks : List String) :
    ((memDelete s ctx ks).2).cfg = s.cfg := by
  unfold memDelete
  cases hc : checkContext ctx with
  | some e => rfl
  | none =>
    simp only [hc]
    induction ks generalizing s with
    | nil => rfl
    | cons k rest ih =>
      simp only [List.foldl_cons]
      cases hf : findEntry s (fullKey s.cfg k) with
      | some it0 => simp only [hf]; exact ih (removeKey s (fullKey s.cfg k))
      | none => simp only [hf]; exact ih s

theorem memExists_cfg (s : Mem V) (ctx : Bool) (k : String) (now : Nat) :
    ((memExists s ctx k now).2).cfg = s.cfg := by
  unfold memExists
  cases hv : validateKey k with
  | some e => rfl
  | none =>
    simp only [hv]
    cases hf : findEntry s (fullKey s.cfg k) with
    | none => simp only [hf]
    | some it =>
      simp only [hf]
      by_cases hx : expiredAt now it = true
      · rw [if_pos hx]
        rfl
      · rw [if_neg hx]

theorem memClear_cfg (s : Mem V) (ctx : Bool) :
    ((memClear s ctx).2).cfg = s.cfg := by
  unfold memClear
  cases hc : checkContext ctx <;> simp only [hc]

theorem memDeleteByPfx_cfg (s : Mem V) (ctx : Bool) (p : String) :
    ((memDeleteByPfx s ctx p).2).cfg = s.cfg := rfl

theorem memLen_cfg (s : Mem V) (ctx : Bool) :
    ((memLen s ctx).2).cfg = s.cfg := by
  unfold memLen
  cases hc : checkContext ctx <;> simp only [hc]

theorem stepOp_cfg (s : Mem V) (op : MOp V) : (stepOp s op).cfg = s.cfg := by
  cases op with
  | get ctx k now => exact memGet_cfg s ctx k now
  | set ctx k v ttl now => exact memSet_cfg s ctx k v ttl now
  | del ctx ks => exact memDelete_cfg s ctx ks
  | clear ctx => exact memClear_cfg s ctx
  | existsOp ctx k now => exact memExists_cfg s ctx k now
  | delByPfx ctx p => exact memDeleteByPfx_cfg s ctx p
  | lenOp ctx => exact memLen_cfg s ctx
  | ping ctx => rfl

theorem runOps_cfg (s : Mem V) (ops : List (MOp V)) :
    (runOps s ops).cfg = s.cfg := by
  induction ops generalizing s with
  | nil => rfl
  | cons op rest ih => exact (ih (stepOp s op)).trans (stepOp_cfg s op)

/-! ## Characterizing a `Set` of a fresh key -/

theorem memSet_fresh {s : Mem V} {k : String} (hv : validateKey k = none)
    (hf : findEntry s (fullKey s.cfg k) = none) (v : V) (ttl : Int)
    (now : Nat) :
    memSet s false k v ttl now =
      (none,
       let s1 := if 0 < s.cfg.maxSize ∧ s.cfg.maxSize ≤ s.length then evict s
         else s
       { s1 with
           entries := ⟨fullKey s.cfg k, v,
             (if 0 < resolveTTL s.cfg ttl then
                now + (resolveTTL s.cfg ttl).toNat else 0), s.clock⟩ ::
             s1.entries,
           length := s1.length + 1,
           clock := s.clock + 1 }) := by
  unfold memSet
  simp only [hv, checkContext_false, hf]

theorem memSet_existing {s : Mem V} {k : String} {it0 : MItem V}
    (hv : validateKey k = none)
    (hf : findEntry s (fullKey s.cfg k) = some it0) (v : V) (ttl : Int)
    (now : Nat) :
    memSet s false k v ttl now =
      (none,
       { s with
           entries := ⟨fullKey s.cfg k, v,
             (if 0 < resolveTTL s.cfg ttl then
                now + (resolveTTL s.cfg ttl).toNat else 0), s.clock⟩ ::
             s.entries.filter (fun j => j.key != fullKey s.cfg k),
           clock := s.clock + 1 }) := by
  unfold memSet
  simp only [hv, checkContext_false, hf]

theorem findEntry_eq_none_of_not_mem {s : Mem V} {fk : String}
    (h : fk ∉ keysOf s) : findEntry s fk = none := by
  refine findEntry_eq_none_iff.mpr (fun it hit hk => h ?_)
  exact hk ▸ List.mem_map_of_mem (fun j => j.key) hit

theorem findEntry_isSome_of_mem {s : Mem V} {fk : String}
    (h : fk ∈ keysOf s) : (findEntry s fk).isSome = true := by
  refine Option.ne_none_iff_isSome.mp (fun hn => ?_)
  rcases List.mem_map.mp h with ⟨it, hit, hk⟩
  exact findEntry_eq_none_iff.mp hn it hit hk

theorem fullKey_inj (cfg : Config) {a b : String}
    (h : fullKey cfg a = fullKey cfg b) : a = b := by
  unfold fullKey at h
  by_cases hp : cfg.pfx = ""
  · simpa [hp] using h
  · rw [if_neg hp, if_neg hp] at h
    have hd := congrArg String.data h
    rw [String.data_append, String.data_append] at hd
    exact String.ext (List.append_cancel_left hd)

/-! ## Running a sequence of fresh inserts -/

theorem run_fresh_sets_bounded {V : Type} (xs : List (String × V × Int × Nat)) :
    ∀ s : Mem V, MemInv s →
    (∀ x ∈ xs, validateKey x.1 = none) →
    (xs.map (fun x => fullKey s.cfg x.1)).Nodup →
    (∀ x ∈ xs, fullKey s.cfg x.1 ∉ keysOf s) →
    0 < s.cfg.maxSize →
    (runOps s (xs.map (fun x =>
        MOp.set false x.1 x.2.1 x.2.2.1 x.2.2.2))).entries.length
      = min (s.entries.length + xs.length) s.cfg.maxSize.toNat := by
  induction xs with
  | nil =>
    intro s h _ _ _ hpos
    have hcap := h.capOk hpos
    have hle : s.entries.length ≤ s.cfg.maxSize.toNat :=
      (Int.le_toNat (le_of_lt hpos)).mpr hcap
    simp [runOps]
    omega
  | cons x rest ih =>
    intro s h hval hnd hfresh hpos
    have hvx : validateKey x.1 = none := hval x (List.mem_cons_self x rest)
    have hfx : findEntry s (fullKey s.cfg x.1) = none :=
      findEntry_eq_none_of_not_mem (hfresh x (List.mem_cons_self x rest))
    simp only [List.map_cons, runOps, List.foldl_cons]
    have hstep : stepOp s (MOp.set false x.1 x.2.1 x.2.2.1 x.2.2.2)
        = (memSet s false x.1 x.2.1 x.2.2.1 x.2.2.2).2 := rfl
    rw [hstep, memSet_fresh hvx hfx]
    set s1 := if 0 < s.cfg.maxSize ∧ s.cfg.maxSize ≤ s.length then evict s
      else s with hs1
    set s' : Mem V :=
      { s1 with
          entries := ⟨fullKey s.cfg x.1, x.2.1,
            (if 0 < resolveTTL s.cfg x.2.2.1 then
               x.2.2.2 + (resolveTTL s.cfg x.2.2.1).toNat else 0), s.clock⟩ ::
            s1.entries,
          length := s1.length + 1,
          clock := s.clock + 1 } with hs'
    have hinv' : MemInv s' := by
      have := memInv_memSet h false x.1 x.2.1 x.2.2.1 x.2.2.2
      rw [memSet_fresh hvx hfx] at this
      exact this
    have hcfg1 : s1.cfg = s.cfg := by
      rw [hs1]
      by_cases hg : 0 < s.cfg.maxSize ∧ s.cfg.maxSize ≤ s.length
      · rw [if_pos hg]; exact evict_cfg s
      · rw [if_neg hg]
    have hcfg' : s'.cfg = s.cfg := hcfg1
    have hsub1 : ∀ fk, fk ∈ keysOf s1 → fk ∈ keysOf s := by
      intro fk hfk
      rw [hs1] at hfk
      by_cases hg : 0 < s.cfg.maxSize ∧ s.cfg.maxSize ≤ s.length
      · rw [if_pos hg] at hfk
        have : keysOf (evict s) = (evict s).entries.map (fun j => j.key) := rfl
        rw [this, evict_entries] at hfk
        exact ((List.dropLast_sublist s.entries).map (fun j => j.key)).mem hfk
      · rw [if_neg hg] at hfk
        exact hfk
    have hk' : keysOf s' = fullKey s.cfg x.1 :: keysOf s1 := rfl
    have hnd' : (rest.map (fun y => fullKey s'.cfg y.1)).Nodup := by
      rw [hcfg']
      simp only [List.map_cons, List.nodup_cons] at hnd
      exact hnd.2
    have hne_head : ∀ y ∈ rest, fullKey s.cfg y.1 ≠ fullKey s.cfg x.1 := by
      simp only [List.map_cons, List.nodup_cons] at hnd
      intro y hy hc
      exact hnd.1 (hc ▸ List.mem_map_of_mem (fun z => fullKey s.cfg z.1) hy)
    have hfresh' : ∀ y ∈ rest, fullKey s'.cfg y.1 ∉ keysOf s' := by
      rw [hcfg']
      intro y hy hmem
      rw [hk'] at hmem
      rcases List.mem_cons.mp hmem with hc | hmem1
      · exact hne_head y hy hc
      · exact hfresh y (List.mem_cons_of_mem x hy) (hsub1 _ hmem1)
    have hval' : ∀ y ∈ rest, validateKey y.1 = none :=
      fun y hy => hval y (List.mem_cons_of_mem x hy)
    have hpos' : 0 < s'.cfg.maxSize := by rw [hcfg']; exact hpos
    have hrec := ih s' hinv' hval' hnd' hfresh' hpos'
    have hlen1 : s'.entries.length = s1.entries.length + 1 := rfl
    have hle := h.lenEq
    have hcap := h.capOk hpos
    have hcapN : s.entries.length ≤ s.cfg.maxSize.toNat :=
      (Int.le_toNat (le_of_lt hpos)).mpr hcap
    have hmax' : s'.cfg.maxSize.toNat = s.cfg.maxSize.toNat := by rw [hcfg']
    rw [hmax'] at hrec
    have hconv : List.foldl stepOp ((none : Option Err), s').2
        (rest.map (fun y => MOp.set false y.1 y.2.1 y.2.2.1 y.2.2.2)) =
        runOps s' (rest.map (fun y => MOp.set false y.1 y.2.1 y.2.2.1 y.2.2.2)) :=
      rfl
    rw [hconv]
    by_cases hg : 0 < s.cfg.maxSize ∧ s.cfg.maxSize ≤ s.length
    · have hs1e : s1 = evict s := by rw [hs1, if_pos hg]
      have hposl : 0 < s.entries.length := by
        have := hg.2
        omega
      have hlen1e : s1.entries.length = s.entries.length - 1 := by
        rw [hs1e, evict_entries, List.length_dropLast]
      have hfull : s.entries.length = s.cfg.maxSize.toNat := by
        have h2 := hg.2
        have h3 : (s.entries.length : Int) = s.length := hle.symm
        omega
      rw [hrec]
      omega
    · have hs1e : s1 = s := by rw [hs1, if_neg hg]
      have hlt : (s.entries.length : Int) < s.cfg.maxSize := by
        rcases not_and_or.mp hg with hc | hc
        · exact absurd hpos hc
        · omega
      have hltN : s.entries.length < s.cfg.maxSize.toNat := by omega
      rw [hrec, hlen1, hs1e]
      simp only [List.length_cons]
      omega

theorem run_fresh_sets_unbounded {V : Type}
    (xs : List (String × V × Int × Nat)) :
    ∀ s : Mem V, (∀ x ∈ xs, validateKey x.1 = none) →
    (xs.map (fun x => fullKey s.cfg x.1)).Nodup →
    (∀ x ∈ xs, fullKey s.cfg x.1 ∉ keysOf s) →
    s.cfg.maxSize ≤ 0 →
    keysOf (runOps s (xs.map (fun x =>
        MOp.set false x.1 x.2.1 x.2.2.1 x.2.2.2)))
      = (xs.map (fun x => fullKey s.cfg x.1)).reverse ++ keysOf s
    ∧ (runOps s (xs.map (fun x =>
        MOp.set false x.1 x.2.1 x.2.2.1 x.2.2.2))).length
      = s.length + xs.length := by
  induction xs with
  | nil =>
    intro s _ _ _ _
    simp [runOps]
  | cons x rest ih =>
    intro s hval hnd hfresh hneg
    have hvx : validateKey x.1 = none := hval x (List.mem_cons_self x rest)
    have hfx : findEntry s (fullKey s.cfg x.1) = none :=
      findEntry_eq_none_of_not_mem (hfresh x (List.mem_cons_self x rest))
    simp only [List.map_cons, runOps, List.foldl_cons]
    have hstep : stepOp s (MOp.set false x.1 x.2.1 x.2.2.1 x.2.2.2)
        = (memSet s false x.1 x.2.1 x.2.2.1 x.2.2.2).2 := rfl
    rw [hstep, memSet_fresh hvx hfx]
    have hg : ¬(0 < s.cfg.maxSize ∧ s.cfg.maxSize ≤ s.length) := by
      intro hcon
      omega
    rw [if_neg hg]
    set s' : Mem V :=
      { s with
          entries := ⟨fullKey s.cfg x.1, x.2.1,
            (if 0 < resolveTTL s.cfg x.2.2.1 then
               x.2.2.2 + (resolveTTL s.cfg x.2.2.1).toNat else 0), s.clock⟩ ::
            s.entries,
          length := s.length + 1,
          clock := s.clock + 1 } with hs'
    have hcfg' : s'.cfg = s.cfg := rfl
    have hk' : keysOf s' = fullKey s.cfg x.1 :: keysOf s := rfl
    have hval' : ∀ y ∈ rest, validateKey y.1 = none :=
      fun y hy => hval y (List.mem_cons_of_mem x hy)
    have hnd' : (rest.map (fun y => fullKey s'.cfg y.1)).Nodup := by
      rw [hcfg']
      simp only [List.map_cons, List.nodup_cons] at hnd
      exact hnd.2
    have hne_head : ∀ y ∈ rest, fullKey s.cfg y.1 ≠ fullKey s.cfg x.1 := by
      simp only [List.map_cons, List.nodup_cons] at hnd
      intro y hy hc
      exact hnd.1 (hc ▸ List.mem_map_of_mem (fun z => fullKey s.cfg z.1) hy)
    have hfresh' : ∀ y ∈ rest, fullKey s'.cfg y.1 ∉ keysOf s' := by
      rw [hcfg']
      intro y hy hmem
      rw [hk'] at hmem
      rcases List.mem_cons.mp hmem with hc | hmem1
      · exact hne_head y hy hc
      · exact hfresh y (List.mem_cons_of_mem x hy) hmem1
    have hneg' : s'.cfg.maxSize ≤ 0 := hneg
    have hrec := ih s' hval' hnd' hfresh' hneg'
    have hconv : List.foldl stepOp ((none : Option Err), s').2
        (rest.map (fun y => MOp.set false y.1 y.2.1 y.2.2.1 y.2.2.2)) =
        runOps s' (rest.map (fun y => MOp.set false y.1 y.2.1 y.2.2.1 y.2.2.2)) :=
      rfl
    rw [hconv]
    have hmapcfg : (rest.map (fun y => fullKey s'.cfg y.1))
        = rest.map (fun y => fullKey s.cfg y.1) := by rw [hcfg']
    rw [hmapcfg] at hrec
    constructor
    · rw [hrec.1, hk', List.reverse_cons, List.append_assoc,
        List.singleton_append]
    · have hl' : s'.length = s.length + 1 := rfl
      rw [hrec.2, hl']
      simp only [List.length_cons]
      push_cast
      ring

/-! ## Claim theorems -/

/-- Claim C7: for the in-memory engine's `Get` with a non-blank key and a
non-cancelled context: an absent namespaced key fails with `CacheMiss`; a
present entry whose `expiresAt` is non-zero and in the past is removed and the
call fails with `CacheMiss`; otherwise the entry is marked most-recently-used
(moved to the head of the LRU list, with its last-touch stamp refreshed) and
its value is returned. -/
theorem c7_memGet_semantics {V : Type} (s : Mem V) (key : String) (now : Nat)
    (hk : validateKey key = none) :
    (findEntry s (fullKey s.cfg key) = none →
      memGet s false key now =
        (.error (.wrapped opGet .cacheMiss key), s))
    ∧ (∀ it, findEntry s (fullKey s.cfg key) = some it →
        expiredAt now it = true →
        memGet s false key now =
          (.error (.wrapped opGet .cacheMiss key),
           removeKey s (fullKey s.cfg key)))
    ∧ (∀ it, findEntry s (fullKey s.cfg key) = some it →
        expiredAt now it = false →
        memGet s false key now =
          (.ok it.value,
           { s with
               entries := { it with stamp := s.clock } ::
                 s.entries.filter (fun j => j.key != fullKey s.cfg key),
               clock := s.clock + 1 })) := by
  refine ⟨?_, ?_, ?_⟩
  · intro hf
    unfold memGet
    simp only [hk, checkContext_false, hf]
  · intro it hf hx
    unfold memGet
    simp only [hk, checkContext_false, hf, hx, if_true]
  · intro it hf hx
    unfold memGet
    simp only [hk, checkContext_false, hf, hx, Bool.false_eq_true, if_false]

/-- Witness for C7 at a concrete store: `Get` of the absent key `b` misses,
and `Get` of the present, unexpired key `a` returns its value and moves it to
the front. -/
theorem c7_memGet_semantics_witness :
    validateKey kB = none
    ∧ memGet memA1 false kB 10 =
        (.error (.wrapped opGet .cacheMiss kB), memA1)
    ∧ memGet memA1 false kA 10 =
        (.ok 1,
         { memA1 with
             entries := [⟨fullKey memA1.cfg kA, 1, 310, memA1.clock⟩],
             clock := memA1.clock + 1 }) := by
  refine ⟨by decide, ?_, ?_⟩
  · exact (c7_memGet_semantics memA1 kB 10 (by decide)).1 (by decide)
  · have h := (c7_memGet_semantics memA1 kA 10 (by decide)).2.2
      ⟨fullKey memA1.cfg kA, 1, 310, 0⟩ (by decide) (by decide)
    rw [h]
    decide

/-- Claim C8: for `Set(key, value, ttl)` on the in-memory engine, a positive
`ttl` is used as-is, a zero/negative `ttl` resolves to the configured default
TTL, and the stored entry's `expiresAt` is `now + resolvedTTL` when the
resolved TTL is positive and the zero timestamp when it is zero. -/
theorem c8_set_ttl_expiry {V : Type} (s : Mem V) (key : String) (v : V)
    (ttl : Int) (now : Nat) (hk : validateKey key = none) :
    (0 < ttl → resolveTTL s.cfg ttl = ttl)
    ∧ (ttl ≤ 0 → resolveTTL s.cfg ttl = s.cfg.ttl)
    ∧ (memSet s false key v ttl now).1 = none
    ∧ (∃ it, ((memSet s false key v ttl now).2).entries.head? = some it
        ∧ it.key = fullKey s.cfg key
        ∧ it.value = v
        ∧ (0 < resolveTTL s.cfg ttl →
            it.expiresAt = now + (resolveTTL s.cfg ttl).toNat)
        ∧ (resolveTTL s.cfg ttl = 0 → it.expiresAt = 0)) := by
  refine ⟨?_, ?_, ?_, ?_⟩
  · intro hpos
    unfold resolveTTL
    rw [if_pos hpos]
  · intro hnonpos
    unfold resolveTTL
    rw [if_neg (by omega)]
  · cases hf : findEntry s (fullKey s.cfg key) with
    | none => rw [memSet_fresh hk hf]
    | some it0 => rw [memSet_existing hk hf]
  · cases hf : findEntry s (fullKey s.cfg key) with
    | none =>
      rw [memSet_fresh hk hf]
      refine ⟨_, rfl, rfl, rfl, ?_, ?_⟩
      · intro hpos
        dsimp only
        rw [if_pos hpos]
      · intro hzero
        dsimp only
        rw [if_neg (by omega)]
    | some it0 =>
      rw [memSet_existing hk hf]
      refine ⟨_, rfl, rfl, rfl, ?_, ?_⟩
      · intro hpos
        dsimp only
        rw [if_pos hpos]
      · intro hzero
        dsimp only
        rw [if_neg (by omega)]

/-- Witness for C8: `Set("a", 7, 0)` at instant 5 under default TTL 300
stores an entry expiring at 305, and `Set("a", 7, 60)` stores one expiring at
65. -/
theorem c8_set_ttl_expiry_witness :
    resolveTTL cfgT 0 = 300
    ∧ (memSet (mkMem Nat cfgT) false kA 7 0 5).1 = none
    ∧ (∃ it, ((memSet (mkMem Nat cfgT) false kA 7 0 5).2).entries.head?
        = some it ∧ it.expiresAt = 305) := by
  have h := c8_set_ttl_expiry (mkMem Nat cfgT) kA 7 0 5 (by decide)
  refine ⟨h.2.1 (by decide), h.2.2.1, ?_⟩
  rcases h.2.2.2 with ⟨it, hhead, _, _, hexp, _⟩
  exact ⟨it, hhead, (hexp (by decide)).trans (by decide)⟩

/-- Claim C9 (counterexample): `DeleteByPrefix` and `Exists` ignore an
already-cancelled context — with the context fired, `DeleteByPrefix("a")` on a
store holding `a ↦ 7` still deletes the entry and reports count 1 with no
error, and `Exists("a")` still reports `true`, instead of returning the
context's error and leaving the store unchanged. -/
theorem c9_counterexample :
    (memDeleteByPfx memA7 true kA).1 = .ok 1
    ∧ (memDeleteByPfx memA7 true kA).2.entries = []
    ∧ (memDeleteByPfx memA7 true kA).1 ≠ .error (.plain .ctxCanceled)
    ∧ (memDeleteByPfx memA7 true kA).2.entries ≠ memA7.entries
    ∧ (memExists memA7 true kA 5).1 = .ok true := by
  decide

/-- Claim C9 (amended): of the in-memory engine's public operations, `Get`,
`Set`, `Delete`, `Clear`, `Len` and `Ping` check the cancellation signal
before starting (after key validation, for `Get` and `Set`): when the context
has already fired they return the context's error and leave the store
unchanged.  `Exists` and `DeleteByPrefix` ignore the cancellation signal. -/
theorem c9_amended_ctx_checks {V : Type} (s : Mem V) (key : String) (v : V)
    (ttl : Int) (now : Nat) (ks : List String)
    (hk : validateKey key = none) :
    memGet s true key now = (.error (.plain .ctxCanceled), s)
    ∧ memSet s true key v ttl now = (some (.plain .ctxCanceled), s)
    ∧ memDelete s true ks = (some (.plain .ctxCanceled), s)
    ∧ memClear s true = (some (.plain .ctxCanceled), s)
    ∧ memLen s true = (.error (.plain .ctxCanceled), s)
    ∧ memPing s true = (some (.plain .ctxCanceled), s) := by
  refine ⟨?_, ?_, ?_, ?_, ?_, ?_⟩
  · unfold memGet
    simp only [hk, checkContext_true]
  · unfold memSet
    simp only [hk, checkContext_true]
  · unfold memDelete
    simp only [checkContext_true]
  · unfold memClear
    simp only [checkContext_true]
  · unfold memLen
    simp only [checkContext_true]
  · unfold memPing
    simp only [checkContext_true]

/-- Witness for the amended C9 at a concrete store. -/
theorem c9_amended_ctx_checks_witness :
    memGet memA7 true kA 5 = (.error (.plain .ctxCanceled), memA7)
    ∧ memClear memA7 true = (some (.plain .ctxCanceled), memA7) := by
  have h := c9_amended_ctx_checks memA7 kA 7 0 5 [] (by decide)
  exact ⟨h.1, h.2.2.2.1⟩

/-- Claim C10: with a non-positive configured capacity (`MaxSize ≤ 0`), `Set`
never evicts — after any sequence of `Set`s of distinct non-blank keys on a
fresh engine, every key is resident and `Len` reports exactly the number of
keys set. -/
theorem c10_unbounded_growth {V : Type} (cfg : Config)
    (hcap : cfg.maxSize ≤ 0) (xs : List (String × V × Int × Nat))
    (hval : ∀ x ∈ xs, validateKey x.1 = none)
    (hnd : (xs.map (fun x => x.1)).Nodup) :
    (∀ x ∈ xs,
      (findEntry (runOps (mkMem V cfg) (xs.map (fun y =>
          MOp.set false y.1 y.2.1 y.2.2.1 y.2.2.2))) (fullKey cfg x.1)).isSome
        = true)
    ∧ memLen (runOps (mkMem V cfg) (xs.map (fun y =>
        MOp.set false y.1 y.2.1 y.2.2.1 y.2.2.2))) false
      = (.ok (xs.length : Int),
         runOps (mkMem V cfg) (xs.map (fun y =>
           MOp.set false y.1 y.2.1 y.2.2.1 y.2.2.2))) := by
  have hcfg0 : (mkMem V cfg).cfg = cfg := rfl
  have hndf : (xs.map (fun x => fullKey (mkMem V cfg).cfg x.1)).Nodup := by
    rw [hcfg0]
    have : xs.map (fun x => fullKey cfg x.1)
        = (xs.map (fun x => x.1)).map (fullKey cfg) := by
      rw [List.map_map]
      rfl
    rw [this]
    exact hnd.map (fun a b => fullKey_inj cfg)
  have hfresh : ∀ x ∈ xs, fullKey (mkMem V cfg).cfg x.1 ∉ keysOf (mkMem V cfg) := by
    intro x _ hc
    simp [mkMem, keysOf] at hc
  have h := run_fresh_sets_unbounded xs (mkMem V cfg) hval hndf hfresh hcap
  constructor
  · intro x hx
    apply findEntry_isSome_of_mem
    rw [h.1, hcfg0]
    refine List.mem_append_left _ ?_
    rw [List.mem_reverse]
    exact List.mem_map_of_mem (fun y => fullKey cfg y.1) hx
  · have hl : (runOps (mkMem V cfg) (xs.map (fun y =>
        MOp.set false y.1 y.2.1 y.2.2.1 y.2.2.2))).length = (xs.length : Int) := by
      rw [h.2]
      simp [mkMem]
    unfold memLen
    simp only [checkContext_false, hl]

/-- Witness for C10: capacity 0, three distinct inserts, all resident and
`Len = 3`. -/
theorem c10_unbounded_growth_witness :
    (findEntry (runOps (mkMem Nat ⟨300, "", 0⟩)
        ([(kA, 1, 0, 5), (kB, 2, 0, 6), (kC, 3, 0, 7)].map (fun y =>
          MOp.set false y.1 y.2.1 y.2.2.1 y.2.2.2)))
      (fullKey ⟨300, "", 0⟩ kA)).isSome = true
    ∧ memLen (runOps (mkMem Nat ⟨300, "", 0⟩)
        ([(kA, 1, 0, 5), (kB, 2, 0, 6), (kC, 3, 0, 7)].map (fun y =>
          MOp.set false y.1 y.2.1 y.2.2.1 y.2.2.2))) false
      = (.ok 3,
         runOps (mkMem Nat ⟨300, "", 0⟩)
           ([(kA, 1, 0, 5), (kB, 2, 0, 6), (kC, 3, 0, 7)].map (fun y =>
             MOp.set false y.1 y.2.1 y.2.2.1 y.2.2.2))) := by
  have h := c10_unbounded_growth (V := Nat) ⟨300, "", 0⟩ (by decide)
    [(kA, 1, 0, 5), (kB, 2, 0, 6), (kC, 3, 0, 7)]
    (by intro x hx; fin_cases hx <;> decide)
    (by decide)
  exact ⟨h.1 (kA, 1, 0, 5) (by decide), h.2⟩

/-- Claim C1: evaluating the emulated `GetManyPipeline` at its failing input.
Over a wrapped store (no pipelined-get capability) holding `a ↦ 1`, with keys
`[a, b]` and a live context, the result mapping contains exactly the present
key — but the call also returns the wrapped cache-miss error for `b`, because
the per-task `Get` error (including a miss) is captured by `concurrentExecute`
as the batch's first error.  The claim (and the spec) say a per-key miss is
omitted with no error, as the native redis pipeline path and the fasthttp
caller expect. -/
theorem c1_pipeline_miss_fails_batch :
    (advGetManyPipeline advA1 (fun _ => false) [kA, kB]).1 = [(kA, 1)]
    ∧ (advGetManyPipeline advA1 (fun _ => false) [kA, kB]).2.1
        = some (.wrapped opGet .cacheMiss kB) := by
  decide

/-- Claim C2: evaluating the example scenario.  Over a fresh memory engine
with configured default TTL 5 minutes, `Set("k","v",0)` then immediate
`Get("k")` does return `"v"` — but the decorator's metrics snapshot is the nil
map, not `hits=1, misses=0` for operation `get`: `NewCollector` leaves its
config at the zero value, so `Enabled` is `false` (the unused
`metrics.DefaultConfig()` would have enabled it), every `Record*` call is a
no-op and `Snapshot()` returns nil. -/
theorem c2_metrics_never_recorded :
    (advSet advFresh false kK vV 0).1 = none
    ∧ (advGet (advSet advFresh false kK vV 0).2 false kK).1 = .ok vV
    ∧ snapshot ((advGet (advSet advFresh false kK vV 0).2 false kK).2.coll)
        = none
    ∧ newCollector.enabled = false
    ∧ metricsDefaultEnabled = true := by
  decide

/-- Claim C3: evaluating `GetOrSetLocked` at its failing input.  Over a
locking-capable wrapped store whose `TryLock` reports `(false, nil)` (lock
held elsewhere) and whose `Get` misses, the call does NOT return a
`LockAcquire` error: `tryLock`'s body `if err != nil || !ok { return err }`
returns the nil `err`, so the compute function is invoked (ghost counter = 1)
and its value is returned with no error. -/
theorem c3_lock_not_acquired_still_computes :
    (advGetOrSetLocked advLockStub false kK 60 (.ok 42)).1 = .ok 42
    ∧ (advGetOrSetLocked advLockStub false kK 60 (.ok 42)).2.2 = 1
    ∧ (advGetOrSetLocked advLockStub false kK 60 (.ok 42)).1
        ≠ .error (.plain .lockAcquire) := by
  decide

/-! ## Lemmas about the emulated pipeline loop -/

theorem gmpLoop_acc_extends {σ V : Type} (ks : List String) :
    ∀ (a : Adv σ V) (ctxAt : Nat → Bool) (i : Nat)
      (acc : List (String × V)) (fe : Option Err),
    ∃ tail, (gmpLoop a ctxAt ks i acc fe).1 = acc ++ tail := by
  induction ks with
  | nil =>
    intro a ctxAt i acc fe
    exact ⟨[], by simp [gmpLoop]⟩
  | cons k rest ih =>
    intro a ctxAt i acc fe
    unfold gmpLoop
    by_cases hc : ctxAt i = true
    · rw [if_pos hc]
      exact ih a ctxAt (i + 1) acc _
    · rw [if_neg hc]
      cases hg : advGet a (ctxAt i) k with
      | mk r a2 =>
        cases r with
        | ok v =>
          rcases ih a2 ctxAt (i + 1) (acc ++ [(k, v)]) fe with ⟨tail, ht⟩
          exact ⟨(k, v) :: tail, by rw [ht, List.append_assoc]; rfl⟩
        | error e =>
          exact ih a2 ctxAt (i + 1) acc _

theorem gmpLoop_err_mono {σ V : Type} (ks : List String) :
    ∀ (a : Adv σ V) (ctxAt : Nat → Bool) (i : Nat)
      (acc : List (String × V)) (fe : Option Err),
    fe.isSome = true → ((gmpLoop a ctxAt ks i acc fe).2.1).isSome = true := by
  induction ks with
  | nil =>
    intro a ctxAt i acc fe hfe
    simpa [gmpLoop] using hfe
  | cons k rest ih =>
    intro a ctxAt i acc fe hfe
    cases fe with
    | none => cases hfe
    | some e0 =>
      unfold gmpLoop
      by_cases hc : ctxAt i = true
      · rw [if_pos hc]
        exact ih a ctxAt (i + 1) acc _ rfl
      · rw [if_neg hc]
        cases hg : advGet a (ctxAt i) k with
        | mk r a2 =>
          cases r with
          | ok v => exact ih a2 ctxAt (i + 1) (acc ++ [(k, v)]) _ rfl
          | error e => exact ih a2 ctxAt (i + 1) acc _ rfl

theorem gmpLoop_cancel_some {σ V : Type} (ks : List String) :
    ∀ (a : Adv σ V) (ctxAt : Nat → Bool) (i : Nat)
      (acc : List (String × V)) (fe : Option Err),
    (∃ j, j < ks.length ∧ ctxAt (i + j) = true) →
    ((gmpLoop a ctxAt ks i acc fe).2.1).isSome = true := by
  induction ks with
  | nil =>
    intro a ctxAt i acc fe h
    rcases h with ⟨j, hj, _⟩
    simp at hj
  | cons k rest ih =>
    intro a ctxAt i acc fe h
    rcases h with ⟨j, hj, hcx⟩
    cases j with
    | zero =>
      rw [Nat.add_zero] at hcx
      unfold gmpLoop
      rw [if_pos hcx]
      cases fe <;> exact gmpLoop_err_mono rest _ ctxAt (i + 1) acc _ rfl
    | succ j0 =>
      have hrec : ∃ j, j < rest.length ∧ ctxAt ((i + 1) + j) = true := by
        refine ⟨j0, ?_, ?_⟩
        · simpa using Nat.lt_of_succ_lt_succ (by simpa using hj)
        · have : (i + 1) + j0 = i + (j0 + 1) := by omega
          rw [this]
          exact hcx
      unfold gmpLoop
      by_cases hc : ctxAt i = true
      · rw [if_pos hc]
        cases fe <;> exact gmpLoop_err_mono rest _ ctxAt (i + 1) acc _ rfl
      · rw [if_neg hc]
        cases hg : advGet a (ctxAt i) k with
        | mk r a2 =>
          cases r with
          | ok v => exact ih a2 ctxAt (i + 1) (acc ++ [(k, v)]) fe hrec
          | error e =>
            cases fe with
            | none => exact ih a2 ctxAt (i + 1) acc _ hrec
            | some e0 => exact ih a2 ctxAt (i + 1) acc _ hrec

theorem gmpLoop_cons_cancel {σ V : Type} {a : Adv σ V} {ctxAt : Nat → Bool}
    {k : String} {l : List String} {i : Nat} {acc : List (String × V)}
    {fe : Option Err} (hc : ctxAt i = true) :
    gmpLoop a ctxAt (k :: l) i acc fe =
      gmpLoop a ctxAt l (i + 1) acc
        (match fe with
         | none => some (Err.plain .ctxCanceled)
         | some e0 => some e0) := by
  conv_lhs => unfold gmpLoop
  rw [if_pos hc]

theorem gmpLoop_cons_ok {σ V : Type} {a a2 : Adv σ V} {ctxAt : Nat → Bool}
    {k : String} {l : List String} {i : Nat} {acc : List (String × V)}
    {fe : Option Err} {v : V} (hc : ¬ctxAt i = true)
    (hg : advGet a (ctxAt i) k = (.ok v, a2)) :
    gmpLoop a ctxAt (k :: l) i acc fe =
      gmpLoop a2 ctxAt l (i + 1) (acc ++ [(k, v)]) fe := by
  conv_lhs => unfold gmpLoop
  rw [if_neg hc, hg]

theorem gmpLoop_cons_err {σ V : Type} {a a2 : Adv σ V} {ctxAt : Nat → Bool}
    {k : String} {l : List String} {i : Nat} {acc : List (String × V)}
    {fe : Option Err} {e : Err} (hc : ¬ctxAt i = true)
    (hg : advGet a (ctxAt i) k = (.error e, a2)) :
    gmpLoop a ctxAt (k :: l) i acc fe =
      gmpLoop a2 ctxAt l (i + 1) acc
        (match fe with
         | none => some e
         | some e0 => some e0) := by
  conv_lhs => unfold gmpLoop
  rw [if_neg hc, hg]

theorem gmpLoop_append {σ V : Type} (ks1 : List String) :
    ∀ (ks2 : List String) (a : Adv σ V) (ctxAt : Nat → Bool) (i : Nat)
      (acc : List (String × V)) (fe : Option Err),
    gmpLoop a ctxAt (ks1 ++ ks2) i acc fe =
      gmpLoop (gmpLoop a ctxAt ks1 i acc fe).2.2 ctxAt ks2 (i + ks1.length)
        (gmpLoop a ctxAt ks1 i acc fe).1 (gmpLoop a ctxAt ks1 i acc fe).2.1 := by
  induction ks1 with
  | nil =>
    intro ks2 a ctxAt i acc fe
    simp [gmpLoop]
  | cons k rest ih =>
    intro ks2 a ctxAt i acc fe
    have harith : i + (k :: rest).length = (i + 1) + rest.length := by
      simp only [List.length_cons]
      omega
    have hh : (k :: rest) ++ ks2 = k :: (rest ++ ks2) := rfl
    rw [hh, harith]
    by_cases hc : ctxAt i = true
    · rw [gmpLoop_cons_cancel (l := rest ++ ks2) hc,
        gmpLoop_cons_cancel (l := rest) hc]
      exact ih ks2 a ctxAt (i + 1) acc _
    · cases hg : advGet a (ctxAt i) k with
      | mk r a2 =>
        cases r with
        | ok v =>
          rw [gmpLoop_cons_ok (l := rest ++ ks2) hc hg,
            gmpLoop_cons_ok (l := rest) hc hg]
          exact ih ks2 a2 ctxAt (i + 1) (acc ++ [(k, v)]) fe
        | error e =>
          rw [gmpLoop_cons_err (l := rest ++ ks2) hc hg,
            gmpLoop_cons_err (l := rest) hc hg]
          exact ih ks2 a2 ctxAt (i + 1) acc _

/-- Claim C6 (counterexample): a run of the emulated `GetManyPipeline` in
which task slot 0 fetches `a ↦ 1` and task slot 1 then observes the cancelled
context: the call fails with the cancellation error, yet the returned mapping
still contains the already-collected entry `(a, 1)` — the partial results are
not discarded. -/
theorem c6_counterexample :
    (advGetManyPipeline advA1 (fun i => i == 1) [kA, kB]).2.1
        = some (.plain .ctxCanceled)
    ∧ (advGetManyPipeline advA1 (fun i => i == 1) [kA, kB]).1 = [(kA, 1)]
    ∧ (advGetManyPipeline advA1 (fun i => i == 1) [kA, kB]).1 ≠ [] := by
  decide

/-- Claim C6 (amended): when the emulated `GetManyPipeline` observes context
cancellation at some task slot, the call as a whole fails (the first captured
error is returned, non-nil), but the partial results already collected are NOT
discarded: the returned mapping extends the mapping collected by any prefix of
the task slots. -/
theorem c6_amended_partial_results_kept {σ V : Type} (a : Adv σ V)
    (ctxAt : Nat → Bool) (ks1 ks2 : List String)
    (hnp : a.store.pipeGet = none) :
    (∃ tail, (advGetManyPipeline a ctxAt (ks1 ++ ks2)).1
        = (gmpLoop a ctxAt ks1 0 [] none).1 ++ tail)
    ∧ ((∃ j, j < (ks1 ++ ks2).length ∧ ctxAt j = true) →
        ((advGetManyPipeline a ctxAt (ks1 ++ ks2)).2.1).isSome = true) := by
  unfold advGetManyPipeline
  rw [hnp]
  constructor
  · rw [gmpLoop_append ks1 ks2 a ctxAt 0 [] none]
    rcases gmpLoop_acc_extends ks2 (gmpLoop a ctxAt ks1 0 [] none).2.2 ctxAt
      (0 + ks1.length) (gmpLoop a ctxAt ks1 0 [] none).1
      (gmpLoop a ctxAt ks1 0 [] none).2.1 with ⟨tail, ht⟩
    exact ⟨tail, ht⟩
  · intro hcancel
    rcases hcancel with ⟨j, hj, hcx⟩
    exact gmpLoop_cancel_some (ks1 ++ ks2) a ctxAt 0 [] none
      ⟨j, hj, by simpa using hcx⟩

/-- Witness for the amended C6 at the concrete counterexample run. -/
theorem c6_amended_witness :
    (∃ tail, (advGetManyPipeline advA1 (fun i => i == 1) [kA, kB]).1
        = (gmpLoop advA1 (fun i => i == 1) [kA] 0 [] none).1 ++ tail)
    ∧ ((advGetManyPipeline advA1 (fun i => i == 1) [kA, kB]).2.1).isSome
        = true := by
  have h := c6_amended_partial_results_kept advA1 (fun i => i == 1) [kA] [kB]
    rfl
  exact ⟨h.1, h.2 ⟨1, by decide, by decide⟩⟩

/-- Claim C4: `GetOrSet` over any wrapped store.  When the decorated `Get`
hits, the cached value is returned and the compute function is not invoked
(ghost counter 0).  On a cache miss with a successful compute, the compute
function is invoked exactly once, its value is stored via the decorated `Set`
with the `Set` outcome ignored, and the freshly computed value is returned
with no error.  Any non-miss error from the initial `Get` is returned without
invoking the compute function. -/
theorem c4_getOrSet_spec {σ V : Type} (a : Adv σ V) (ctx : Bool)
    (key : String) (ttl : Int) (fn : Except Err V) :
    (∀ (v : V) (a1 : Adv σ V), advGet a ctx key = (.ok v, a1) →
      advGetOrSet a ctx key ttl fn =
        (.ok v, { a1 with coll := withMetricsColl a1.coll opGetOrSet 1 none },
         0))
    ∧ (∀ (e : Err) (a1 : Adv σ V) (v : V),
        advGet a ctx key = (.error e, a1) → e.isCacheMiss = true →
        fn = .ok v →
        advGetOrSet a ctx key ttl fn =
          (.ok v,
           { (advSet a1 ctx key v ttl).2 with
               coll := withMetricsColl (advSet a1 ctx key v ttl).2.coll
                 opGetOrSet 1 none },
           1))
    ∧ (∀ (e : Err) (a1 : Adv σ V),
        advGet a ctx key = (.error e, a1) → e.isCacheMiss = false →
        advGetOrSet a ctx key ttl fn =
          (.error e,
           { a1 with coll := withMetricsColl a1.coll opGetOrSet 1 (some e) },
           0)) := by
  refine ⟨?_, ?_, ?_⟩
  · intro v a1 h
    unfold advGetOrSet advGetOrSetCore
    rw [h]
    rfl
  · intro e a1 v h hm hfn
    unfold advGetOrSet advGetOrSetCore
    rw [h, hfn]
    simp only [hm, Bool.not_true, Bool.false_eq_true, if_false]
  · intro e a1 h hm
    unfold advGetOrSet advGetOrSetCore
    rw [h]
    simp only [hm, Bool.not_false, if_true]
    rfl

/-- Witness for C4 over the memory-backed decorator: `GetOrSet` of the
present key `a` returns the cached 1 without computing; `GetOrSet` of the
absent key `b` computes once and returns 99. -/
theorem c4_getOrSet_spec_witness :
    (advGetOrSet advA1 false kA 300 (.ok 99)).1 = .ok 1
    ∧ (advGetOrSet advA1 false kA 300 (.ok 99)).2.2 = 0
    ∧ (advGetOrSet advA1 false kB 300 (.ok 99)).1 = .ok 99
    ∧ (advGetOrSet advA1 false kB 300 (.ok 99)).2.2 = 1 := by
  have h1 : (advGet advA1 false kA).1 = .ok 1 := by decide
  have hpairA : advGet advA1 false kA =
      (Except.ok 1, (advGet advA1 false kA).2) := by
    rw [← h1]
  have hA := (c4_getOrSet_spec advA1 false kA 300 (Except.ok 99)).1 1 _ hpairA
  have h2 : (advGet advA1 false kB).1
      = .error (.wrapped opGet .cacheMiss kB) := by decide
  have hpairB : advGet advA1 false kB =
      (Except.error (Err.wrapped opGet .cacheMiss kB),
       (advGet advA1 false kB).2) := by
    rw [← h2]
  have hB := (c4_getOrSet_spec advA1 false kB 300 (Except.ok 99)).2.1 _ _ 99
    hpairB (by decide) rfl
  exact ⟨by rw [hA], by rw [hA], by rw [hB], by rw [hB]⟩

theorem nodup_fullKeys {V : Type} (cfg : Config)
    (xs : List (String × V × Int × Nat))
    (hnd : (xs.map (fun x => x.1)).Nodup) :
    (xs.map (fun x => fullKey cfg x.1)).Nodup := by
  have hmm : xs.map (fun x => fullKey cfg x.1)
      = (xs.map (fun x => x.1)).map (fullKey cfg) := by
    rw [List.map_map]
    rfl
  rw [hmm]
  exact hnd.map (fun a b => fullKey_inj cfg)

/-- Claim C5: for the in-memory engine with capacity `N > 0`: (1) the resident
entry count never exceeds `N` after any sequence of operations from a fresh
engine; (2) inserting `N + 1` distinct non-blank keys leaves exactly `N`
resident entries; (3) whenever the engine is at capacity and a fresh key is
inserted, the entry evicted is the back of the LRU list, which is the
least-recently-touched entry: its ghost last-touch stamp (written exactly when
an entry is touched by a successful `Get` or by `Set`) is strictly below every
other resident entry's stamp. -/
theorem c5_capacity_and_lru {V : Type} (cfg : Config)
    (hpos : 0 < cfg.maxSize) :
    (∀ ops : List (MOp V),
      ((runOps (mkMem V cfg) ops).entries.length : Int) ≤ cfg.maxSize)
    ∧ (∀ xs : List (String × V × Int × Nat),
        (∀ x ∈ xs, validateKey x.1 = none) →
        (xs.map (fun x => x.1)).Nodup →
        (xs.length : Int) = cfg.maxSize + 1 →
        ((runOps (mkMem V cfg) (xs.map (fun y =>
            MOp.set false y.1 y.2.1 y.2.2.1 y.2.2.2))).entries.length : Int)
          = cfg.maxSize)
    ∧ (∀ (ops : List (MOp V)) (k : String) (v : V) (ttl : Int) (now : Nat),
        validateKey k = none →
        findEntry (runOps (mkMem V cfg) ops) (fullKey cfg k) = none →
        ((runOps (mkMem V cfg) ops).entries.length : Int) = cfg.maxSize →
        ∃ lru, (runOps (mkMem V cfg) ops).entries.getLast? = some lru
          ∧ (memSet (runOps (mkMem V cfg) ops) false k v ttl now).2.entries
              = ⟨fullKey cfg k, v,
                 (if 0 < resolveTTL cfg ttl then
                    now + (resolveTTL cfg ttl).toNat else 0),
                 (runOps (mkMem V cfg) ops).clock⟩ ::
                (runOps (mkMem V cfg) ops).entries.dropLast
          ∧ (∀ it ∈ (runOps (mkMem V cfg) ops).entries.dropLast,
              lru.stamp < it.stamp)) := by
  have hcfg0 : (mkMem V cfg).cfg = cfg := rfl
  refine ⟨?_, ?_, ?_⟩
  · intro ops
    have hinv := memInv_runOps (memInv_mk V cfg) ops
    have hcfgs : (runOps (mkMem V cfg) ops).cfg = cfg :=
      (runOps_cfg (mkMem V cfg) ops).trans hcfg0
    have := hinv.capOk
    rw [hcfgs] at this
    exact this hpos
  · intro xs hval hnd hlenx
    have hndf : (xs.map (fun x => fullKey (mkMem V cfg).cfg x.1)).Nodup := by
      rw [hcfg0]
      exact nodup_fullKeys cfg xs hnd
    have hfresh : ∀ x ∈ xs,
        fullKey (mkMem V cfg).cfg x.1 ∉ keysOf (mkMem V cfg) := by
      intro x _ hc
      simp [mkMem, keysOf] at hc
    have h := run_fresh_sets_bounded xs (mkMem V cfg) (memInv_mk V cfg)
      hval hndf hfresh hpos
    have hzero : (mkMem V cfg).entries.length = 0 := rfl
    rw [hzero] at h
    have hmax : (mkMem V cfg).cfg.maxSize.toNat = cfg.maxSize.toNat := rfl
    rw [hmax] at h
    have hxlen : xs.length = cfg.maxSize.toNat + 1 := by omega
    rw [h, hxlen]
    have : min (0 + (cfg.maxSize.toNat + 1)) cfg.maxSize.toNat
        = cfg.maxSize.toNat := by omega
    rw [this]
    omega
  · intro ops k v ttl now hk hf hlen
    have hinv := memInv_runOps (memInv_mk V cfg) ops
    have hcfgs : (runOps (mkMem V cfg) ops).cfg = cfg :=
      (runOps_cfg (mkMem V cfg) ops).trans hcfg0
    have hle := hinv.lenEq
    have hne : (runOps (mkMem V cfg) ops).entries ≠ [] := by
      intro hnil
      rw [hnil] at hlen
      simp at hlen
      omega
    refine ⟨(runOps (mkMem V cfg) ops).entries.getLast hne,
      List.getLast?_eq_getLast _ hne, ?_, ?_⟩
    · have hf' : findEntry (runOps (mkMem V cfg) ops)
          (fullKey (runOps (mkMem V cfg) ops).cfg k) = none := by
        rw [hcfgs]
        exact hf
      have hg : 0 < (runOps (mkMem V cfg) ops).cfg.maxSize ∧
          (runOps (mkMem V cfg) ops).cfg.maxSize
            ≤ (runOps (mkMem V cfg) ops).length := by
        rw [hcfgs]
        exact ⟨hpos, by omega⟩
      rw [memSet_fresh hk hf']
      dsimp only
      rw [if_pos hg, evict_entries, hcfgs]
    · intro it hit
      have hsplit : (runOps (mkMem V cfg) ops).entries.dropLast ++
          [(runOps (mkMem V cfg) ops).entries.getLast hne]
            = (runOps (mkMem V cfg) ops).entries :=
        List.dropLast_append_getLast hne
      have hp := hinv.sorted
      rw [← hsplit] at hp
      have := (List.pairwise_append.mp hp).2.2
      exact this it hit _ (List.mem_singleton_self _)

/-- Witness for C5 at capacity 2: two inserts then bounds, three distinct
inserts leave two residents, and inserting `c` into the full engine evicts the
least-recently-touched entry `a`. -/
theorem c5_capacity_and_lru_witness :
    (((runOps (mkMem Nat cfgW) opsW5).entries.length : Int) ≤ 2)
    ∧ (((runOps (mkMem Nat cfgW) (xsW5.map (fun y =>
        MOp.set false y.1 y.2.1 y.2.2.1 y.2.2.2))).entries.length : Int) = 2)
    ∧ (∃ lru, (runOps (mkMem Nat cfgW) opsW5).entries.getLast? = some lru
        ∧ (memSet (runOps (mkMem Nat cfgW) opsW5) false kC 9 0 7).2.entries
            = ⟨fullKey cfgW kC, 9,
               (if 0 < resolveTTL cfgW 0 then
                  7 + (resolveTTL cfgW 0).toNat else 0),
               (runOps (mkMem Nat cfgW) opsW5).clock⟩ ::
              (runOps (mkMem Nat cfgW) opsW5).entries.dropLast
        ∧ (∀ it ∈ (runOps (mkMem Nat cfgW) opsW5).entries.dropLast,
            lru.stamp < it.stamp)) := by
  have h := c5_capacity_and_lru (V := Nat) cfgW (by decide)
  refine ⟨h.1 opsW5, ?_, ?_⟩
  · exact h.2.1 xsW5 (by intro x hx; fin_cases hx <;> decide) (by decide)
      (by decide)
  · exact h.2.2 opsW5 kC 9 0 7 (by decide) (by decide) (by decide)

end GoCache
